import Mathlib

/-!
Verification model of the php-doc-gen pipeline (src/main.rs).

The program extracts PHP method definitions from a source file with the
fancy-regex pattern

  (?ms)(/\*\*.*?\*/\s*)?\s*(public|protected|private)?\s*function\s+(\w+)\s*\((.*?)\)\s*\x7b(.*?)\n\s*\x7d

generates docblocks through a single bulk request to an external service,
reconciles the returned segment count with the method count, and rewrites
the file by offset-tracked insertion.  Source text is modelled as `List Char`
(ASCII byte offsets coincide with character indices).
-/

namespace PhpDocGen

/-- The whitespace class of the regex ( \t \n vertical-tab form-feed \r space). -/
def isWsChar (c : Char) : Bool :=
  c = ' ' || c = '\t' || c = '\n' || c = '\x0b' || c = '\x0c' || c = '\r'

/-- The word-character class of the regex (letters, digits, underscore). -/
def isWordChar (c : Char) : Bool :=
  c.isAlpha || c.isDigit || c = '_'

/-- Opening brace character, kept as a named constant. -/
def lbrace : Char := Char.ofNat 123

/-- Closing brace character, kept as a named constant. -/
def rbrace : Char := Char.ofNat 125

/-- Greedy split of the maximal whitespace run from the front. -/
def wsTake : List Char → List Char × List Char
  | [] => ([], [])
  | c :: rest =>
    if isWsChar c then
      let p := wsTake rest
      (c :: p.1, p.2)
    else ([], c :: rest)

/-- Greedy split of the maximal word-character run from the front. -/
def wordTake : List Char → List Char × List Char
  | [] => ([], [])
  | c :: rest =>
    if isWordChar c then
      let p := wordTake rest
      (c :: p.1, p.2)
    else ([], c :: rest)

/-- Strip a literal off the front of the input, returning the rest on success. -/
def dropLit : List Char → List Char → Option (List Char)
  | [], s => some s
  | _ :: _, [] => none
  | p :: ps, c :: cs => if c = p then dropLit ps cs else none

/-- All decompositions `s = a ++ pat ++ b`, earliest occurrence of `pat` first:
the backtracking order of a non-greedy gap before a literal. -/
def splitsAtSeq (pat : List Char) : List Char → List (List Char × List Char)
  | [] => []
  | c :: rest =>
    let tails := (splitsAtSeq pat rest).map (fun pr => (c :: pr.1, pr.2))
    match dropLit pat (c :: rest) with
    | some r => ([], r) :: tails
    | none => tails

/-- Try the body terminator of the regex — newline, maximal whitespace,
closing brace — at the position whose first character is `c` and rest is
`rest`.  Returns (terminator text, rest after it). -/
def termHere (c : Char) (rest : List Char) : Option (List Char × List Char) :=
  if c = '\n' then
    match wsTake rest with
    | (w, d :: r2) => if d = rbrace then some (c :: (w ++ [rbrace]), r2) else none
    | (_, []) => none
  else none

/-- Body terminator search: splits `s` as `body ++ term ++ rest` where `term`
is the earliest occurrence of the terminator (the non-greedy body group). -/
def bodyTerm : List Char → Option (List Char × List Char × List Char)
  | [] => none
  | c :: rest =>
    match termHere c rest with
    | some (t, r2) => some ([], t, r2)
    | none =>
      match bodyTerm rest with
      | some (b, t, r) => some (c :: b, t, r)
      | none => none

/-- The literal `function` keyword. -/
def fnKeyword : List Char := "function".data

/-- The literal `public` keyword. -/
def kwPublic : List Char := "public".data

/-- The literal `protected` keyword. -/
def kwProtected : List Char := "protected".data

/-- The literal `private` keyword. -/
def kwPrivate : List Char := "private".data

/-- The literal docblock opener. -/
def dbOpen : List Char := "/**".data

/-- The literal docblock closer. -/
def dbClose : List Char := "*/".data

/-- Options for the optional leading docblock group, in backtracking order:
each non-greedy docblock match (including its greedy trailing whitespace)
first, then the group absent.  Each entry is (captured group, rest). -/
def dbOptions (s : List Char) : List (Option (List Char) × List Char) :=
  (match dropLit dbOpen s with
   | some r =>
     (splitsAtSeq dbClose r).map (fun pr =>
       (some (dbOpen ++ pr.1 ++ dbClose ++ (wsTake pr.2).1), (wsTake pr.2).2))
   | none => []) ++ [(none, s)]

/-- Options for the optional visibility group, in alternation order, then
the group absent. -/
def visOptions (s : List Char) : List (Option (List Char) × List Char) :=
  ([kwPublic, kwProtected, kwPrivate].filterMap (fun kw =>
    (dropLit kw s).map (fun r => (some kw, r)))) ++ [(none, s)]

/-- One extracted match before conversion to a `Method`: the five capture
groups plus the full matched text. -/
structure RawMatch where
  docblock : Option (List Char)
  visibility : Option (List Char)
  name : List Char
  parameters : List Char
  body : List Char
  consumed : List Char
deriving DecidableEq, Repr

/-- Matcher after the opening brace of the body: finds the non-greedy body
and its terminator.  Returns (body group, consumed text, rest). -/
def matchAfterBrace (s : List Char) : Option (List Char × List Char × List Char) :=
  (bodyTerm s).map (fun btr => (btr.1, btr.1 ++ btr.2.1, btr.2.2))

/-- Matcher after the opening parenthesis: non-greedy parameter group up to a
closing parenthesis, whitespace, opening brace, then the body.  Returns
(parameters, body, consumed text, rest). -/
def matchAfterParen (s : List Char) :
    Option (List Char × List Char × List Char × List Char) :=
  (splitsAtSeq [')'] s).findSome? (fun pr =>
    match (wsTake pr.2).2 with
    | c :: s4 =>
      if c = lbrace then
        (matchAfterBrace s4).map (fun bcr =>
          (pr.1, bcr.1, pr.1 ++ [')'] ++ (wsTake pr.2).1 ++ [lbrace] ++ bcr.2.1, bcr.2.2))
      else none
    | [] => none)

/-- Matcher after the `function` keyword: mandatory whitespace, name, optional
whitespace, parenthesis.  Returns (name, parameters, body, consumed, rest). -/
def matchAfterFn (s : List Char) :
    Option (List Char × List Char × List Char × List Char × List Char) :=
  if (wsTake s).1.isEmpty then none
  else if (wordTake (wsTake s).2).1.isEmpty then none
  else
    match (wsTake (wordTake (wsTake s).2).2).2 with
    | c :: s4 =>
      if c = '(' then
        (matchAfterParen s4).map (fun pb =>
          ((wordTake (wsTake s).2).1, pb.1, pb.2.1,
           (wsTake s).1 ++ (wordTake (wsTake s).2).1
             ++ (wsTake (wordTake (wsTake s).2).2).1 ++ ['('] ++ pb.2.2.1,
           pb.2.2.2))
      else none
    | [] => none

/-- Matcher for the visibility group onward.  Returns
(visibility, name, parameters, body, consumed, rest). -/
def matchVisTail (s : List Char) :
    Option (Option (List Char) × List Char × List Char × List Char × List Char × List Char) :=
  (visOptions s).findSome? (fun vo =>
    (dropLit fnKeyword (wsTake vo.2).2).bind (fun s3 =>
      (matchAfterFn s3).map (fun r =>
        (vo.1, r.1, r.2.1, r.2.2.1,
         (vo.1.getD []) ++ (wsTake vo.2).1 ++ fnKeyword ++ r.2.2.2.1, r.2.2.2.2))))

/-- Attempt to match the whole method pattern at the start of `s`, trying
alternatives in the engine's backtracking order.  Returns the raw match and
the unconsumed rest. -/
def matchFrom (s : List Char) : Option (RawMatch × List Char) :=
  (dbOptions s).findSome? (fun dbo =>
    (matchVisTail (wsTake dbo.2).2).map (fun r =>
      ({ docblock := dbo.1, visibility := r.1, name := r.2.1,
         parameters := r.2.2.1, body := r.2.2.2.1,
         consumed := (dbo.1.getD []) ++ (wsTake dbo.2).1 ++ r.2.2.2.2.1 }, r.2.2.2.2.2)))

/-- One extracted method record, mirroring the Rust `Method` struct. -/
structure Method where
  visibility : List Char
  name : List Char
  parameters : List Char
  body : List Char
  docblock : Option (List Char)
  start_position : Nat
deriving DecidableEq, Repr

/-- Convert a raw match found at offset `i` to a `Method`: visibility defaults
to public, the body group is trimmed, the docblock group is kept verbatim,
`start_position` is the offset of the whole matched construct. -/
def trimChars (s : List Char) : List Char :=
  ((s.dropWhile isWsChar).reverse.dropWhile isWsChar).reverse

/-- Build the `Method` record from a raw match at offset `i`. -/
def mkMethod (rm : RawMatch) (i : Nat) : Method :=
  { visibility := rm.visibility.getD kwPublic
    name := rm.name
    parameters := rm.parameters
    body := trimChars rm.body
    docblock := rm.docblock
    start_position := i }

/-- Scan loop: at each offset try the pattern; on a match emit the method and
its matched text and resume after the match (non-overlapping, leftmost-first),
otherwise advance one character.  `f` is structural fuel, at least the length
of the remaining input. -/
def scanAux : Nat → Nat → List Char → List (Method × List Char)
  | 0, _, _ => []
  | f + 1, i, s =>
    match s with
    | [] => []
    | _ :: rest =>
      match matchFrom s with
      | some (rm, r) => (mkMethod rm i, rm.consumed) :: scanAux f (i + rm.consumed.length) r
      | none => scanAux f (i + 1) rest

/-- All matches of the method pattern in `s`, with their matched texts. -/
def scanRaw (s : List Char) : List (Method × List Char) :=
  scanAux s.length 0 s

/-- The ordered method list extracted from source text `s`. -/
def extractMethods (s : List Char) : List Method :=
  (scanRaw s).map Prod.fst

/-- The Rust `AppError` enum (payloads irrelevant to the claims are elided;
the status text interpolated into the API-response message is dropped). -/
inductive AppError where
  | ioErr
  | regexErr
  | requestErr
  | envErr
  | apiResponse (msg : List Char)
deriving DecidableEq, Repr

/-- `parse_php_file`: the file read may fail; extraction of the contents is
total.  The argument is the result of reading the file. -/
def parse_php_file : Except AppError (List Char) → Except AppError (List Method)
  | .error e => .error e
  | .ok contents => .ok (extractMethods contents)

/-- The bulk-mode segment delimiter. -/
def delim : List Char := "---".data

/-- Left-to-right split on each non-overlapping occurrence of `delim`,
as Rust `str::split`.  `acc` holds the current piece reversed; the fuel is
at least the input length plus one. -/
def splitOnDelimAux : Nat → List Char → List Char → List (List Char)
  | 0, acc, s => [acc.reverse ++ s]
  | f + 1, acc, s =>
    match dropLit delim s with
    | some r => acc.reverse :: splitOnDelimAux f [] r
    | none =>
      match s with
      | [] => [acc.reverse]
      | c :: rest => splitOnDelimAux f (c :: acc) rest

/-- Split `s` on the bulk delimiter. -/
def splitOnDelim (s : List Char) : List (List Char) :=
  splitOnDelimAux (s.length + 1) [] s

/-- Split the response text on the delimiter, trim each segment, and discard
empty segments — the processing of the bulk response body. -/
def splitSegments (content : List Char) : List (List Char) :=
  ((splitOnDelim content).map trimChars).filter (fun s => !s.isEmpty)

/-- The fixed placeholder annotation used when the service returns too few
segments. -/
def placeholder : List Char := "/** Generated docblock */".data

/-- Reconciliation of the segment count with the method count `n`: pass
through on an exact match, pad the tail with the placeholder when short,
truncate when long. -/
def reconcile (n : Nat) (docblocks : List (List Char)) : List (List Char) :=
  if docblocks.length ≠ n then
    if docblocks.length < n then
      docblocks ++ List.replicate (n - docblocks.length) placeholder
    else
      docblocks.take n
  else docblocks

/-- Decoded response body of the service call: a JSON decode failure, or the
decoded JSON with the optional `content[0].text` field. -/
inductive JsonBody where
  | decodeError
  | fields (textField : Option (List Char))
deriving DecidableEq, Repr

/-- Outcome of the HTTP exchange: transport failure, or a response with a
status code and body. -/
inductive ApiResult where
  | transportError
  | response (status : Nat) (body : JsonBody)
deriving DecidableEq, Repr

/-- `StatusCode::is_success`: 2xx. -/
def statusIsSuccess (s : Nat) : Bool :=
  decide (200 ≤ s) && decide (s < 300)

/-- Message of the missing-text-field error. -/
def msgNoContent : List Char := "Failed to extract content from API response".data

/-- Message of the non-success-status error (interpolated status elided). -/
def msgBadStatus : List Char := "API request failed with status".data

/-- `generate_bulk_documentation` for `n` methods, given the outcome of its
single service call: on a success status, extract `content[0].text`, split on
the delimiter and reconcile the count; every other outcome is an error. -/
def generate_bulk_documentation (n : Nat) (r : ApiResult) :
    Except AppError (List (List Char)) :=
  match r with
  | .transportError => .error .requestErr
  | .response st body =>
    if statusIsSuccess st then
      match body with
      | .decodeError => .error .requestErr
      | .fields none => .error (.apiResponse msgNoContent)
      | .fields (some content) => .ok (reconcile n (splitSegments content))
    else .error (.apiResponse msgBadStatus)

/-- Whether an `Except` value is a success. -/
def exceptIsOk : Except AppError (List (List Char)) → Bool
  | .ok _ => true
  | .error _ => false

/-- Insert `t` into `s` at position `i` (Rust `String::insert_str`). -/
def insertAt (s : List Char) (i : Nat) (t : List Char) : List Char :=
  s.take i ++ t ++ s.drop i

/-- One iteration of the rewrite loop of `update_php_file`: the accumulator
is the buffer and the running offset; a set docblock is inserted, wrapped in
two newline characters, at `start_position + offset`, and the offset grows by
the docblock length plus two; an unset docblock leaves the accumulator
untouched. -/
def updateStep (acc : List Char × Nat) (m : Method) : List Char × Nat :=
  match m.docblock with
  | some db =>
    (insertAt acc.1 (m.start_position + acc.2) ('\n' :: (db ++ ['\n'])),
     acc.2 + (db.length + 2))
  | none => acc

/-- `update_php_file`: fold the rewrite loop over the methods, starting from
the file contents and offset zero, and return the final buffer. -/
def update_php_file (contents : List Char) (methods : List Method) : List Char :=
  (methods.foldl updateStep (contents, 0)).1

/-- Stated from the spec's words for comparison with `update_php_file`: keep
an explicit adjustment counter, insert each set annotation with its two
surrounding newline characters at `start_position + adjustment`, and grow the
adjustment by the inserted length. -/
def offsetTrackedRewriteSpec : List Char → List Method → Nat → List Char
  | cs, [], _ => cs
  | cs, m :: ms, adj =>
    match m.docblock with
    | some db =>
      offsetTrackedRewriteSpec
        (insertAt cs (m.start_position + adj) ('\n' :: (db ++ ['\n'])))
        ms (adj + (db.length + 2))
    | none => offsetTrackedRewriteSpec cs ms adj

/-- Docblock attachment in `main`: `zip` of the mutable method list with the
generated docblocks sets one docblock per method, up to the shorter length. -/
def attachDocblocks : List Method → List (List Char) → List Method
  | ms, [] => ms
  | [], _ :: _ => []
  | m :: ms, d :: ds => { m with docblock := some d } :: attachDocblocks ms ds

/-- Modelled from the spec: outcome of one sequential-mode request for a
single method (sequential mode is described in the spec but absent from
`src/main.rs`, which implements only bulk mode). -/
inductive SeqResp where
  | rateLimited
  | fatalStatus
  | okText (text : List Char)

/-- Modelled from the spec: final outcome of the retry loop for one method. -/
inductive SeqOutcome where
  | success (text : List Char)
  | fatalFailure
  | retryExhausted
deriving DecidableEq, Repr

/-- Modelled from the spec: the sequential-mode retry loop for one method.
`oracle k` is the outcome of attempt `k`; `remaining` is the number of
retries still allowed.  On a rate-limited response with retries left, the
loop sleeps `base * 2 ^ k` and retries; with none left it fails as
retry-exhausted with no further attempts.  Returns the outcome and the list
of delays slept. -/
def runSeqAux (oracle : Nat → SeqResp) (base : Nat) :
    Nat → Nat → SeqOutcome × List Nat
  | 0, k =>
    match oracle k with
    | .okText t => (.success t, [])
    | .fatalStatus => (.fatalFailure, [])
    | .rateLimited => (.retryExhausted, [])
  | r + 1, k =>
    match oracle k with
    | .okText t => (.success t, [])
    | .fatalStatus => (.fatalFailure, [])
    | .rateLimited =>
      ((runSeqAux oracle base r (k + 1)).1,
       base * 2 ^ k :: (runSeqAux oracle base r (k + 1)).2)

/-- Modelled from the spec: run the retry loop from attempt zero with the
configured maximum retry count. -/
def runSeq (oracle : Nat → SeqResp) (base maxRetries : Nat) : SeqOutcome × List Nat :=
  runSeqAux oracle base maxRetries 0

/-- Modelled from the spec: sequential mode processes each method
independently; `oracle i` is the per-attempt outcome for method `i`. -/
def sequentialGenerate (oracle : Nat → Nat → SeqResp) (base maxRetries n : Nat) :
    List (SeqOutcome × List Nat) :=
  (List.range n).map (fun i => runSeq (oracle i) base maxRetries)

/-- Example source whose method body is truncated at the inner closing brace
that sits alone on its own line. -/
def php_truncated : List Char :=
  "function foo(a) \x7b\n    if (a) \x7b\n        b();\n    \x7d\n    c();\n\x7d".data

/-- The (trimmed) body the extractor reports for `php_truncated`. -/
def truncatedBody : List Char := "if (a) \x7b\n        b();".data

/-- Example source whose single method never places a closing brace alone on
its own line. -/
def php_oneline : List Char := "function foo() \x7b return 1; \x7d".data

/-- Example source used in the offset-fidelity witness. -/
def c3Src : List Char := "function f(x) \x7b\nreturn x;\n\x7d".data

/-- The single raw scan result of `c3Src`. -/
def c3Pair : Method × List Char :=
  ({ visibility := kwPublic, name := ['f'], parameters := ['x'],
     body := "return x;".data, docblock := none, start_position := 0 }, c3Src)

/-- Example source with no matching construct. -/
def noMethodsSrc : List Char := "<?php echo 1;".data

/-- Example segment used in witnesses. -/
def segA : List Char := "/** a */".data

/-- Example segment used in witnesses. -/
def segB : List Char := "/** b */".data

/-- First method of the concrete rewrite scenario: start position 10,
docblock of length one. -/
def demoMethodA : Method :=
  { visibility := kwPublic, name := ['m'], parameters := [], body := [],
    docblock := some ['A'], start_position := 10 }

/-- Second method of the concrete rewrite scenario: start position 50,
docblock of length one. -/
def demoMethodB : Method :=
  { visibility := kwPublic, name := ['n'], parameters := [], body := [],
    docblock := some ['B'], start_position := 50 }

/-- `demoMethodA` after attachment of the single segment `segA`. -/
def demoAttached : Method := { demoMethodA with docblock := some segA }

/-! ### Helper lemmas about the matching primitives -/

theorem findSome_mem {α β : Type} {f : α → Option β} :
    ∀ {l : List α} {b : β}, l.findSome? f = some b → ∃ a, a ∈ l ∧ f a = some b := by
  intro l
  induction l with
  | nil => intro b h; simp [List.findSome?] at h
  | cons a as ih =>
    intro b h
    rw [List.findSome?] at h
    cases hfa : f a with
    | some c =>
      rw [hfa] at h
      exact ⟨a, List.mem_cons_self a as, by rw [hfa]; exact h⟩
    | none =>
      rw [hfa] at h
      obtain ⟨x, hx, hfx⟩ := ih h
      exact ⟨x, List.mem_cons_of_mem a hx, hfx⟩

theorem wsTake_eq : ∀ s : List Char, (wsTake s).1 ++ (wsTake s).2 = s := by
  intro s
  induction s with
  | nil => rfl
  | cons c rest ih =>
    unfold wsTake
    by_cases h : isWsChar c = true
    · simp [h, ih]
    · simp [h]

theorem wordTake_eq : ∀ s : List Char, (wordTake s).1 ++ (wordTake s).2 = s := by
  intro s
  induction s with
  | nil => rfl
  | cons c rest ih =>
    unfold wordTake
    by_cases h : isWordChar c = true
    · simp [h, ih]
    · simp [h]

theorem dropLit_eq : ∀ (p s r : List Char), dropLit p s = some r → p ++ r = s := by
  intro p
  induction p with
  | nil => intro s r h; simp [dropLit] at h; simp [h]
  | cons a ps ih =>
    intro s r h
    cases s with
    | nil => simp [dropLit] at h
    | cons c cs =>
      unfold dropLit at h
      by_cases hc : c = a
      · rw [if_pos hc] at h
        have := ih cs r h
        simp [hc, this]
      · rw [if_neg hc] at h
        exact absurd h (by simp)

theorem splitsAtSeq_eq : ∀ (pat s : List Char) (pr : List Char × List Char),
    pr ∈ splitsAtSeq pat s → pr.1 ++ (pat ++ pr.2) = s := by
  intro pat s
  induction s with
  | nil => intro pr h; simp [splitsAtSeq] at h
  | cons c rest ih =>
    intro pr h
    unfold splitsAtSeq at h
    cases hd : dropLit pat (c :: rest) with
    | some r =>
      rw [hd] at h
      rcases List.mem_cons.mp h with h1 | h2
      · subst h1
        simpa using dropLit_eq pat (c :: rest) r hd
      · obtain ⟨q, hq, he⟩ := List.mem_map.mp h2
        have hrest := ih q hq
        subst he
        simp [List.cons_append, hrest]
    | none =>
      rw [hd] at h
      obtain ⟨q, hq, he⟩ := List.mem_map.mp h
      have hrest := ih q hq
      subst he
      simp [List.cons_append, hrest]

theorem termHere_eq : ∀ (c : Char) (rest t r : List Char),
    termHere c rest = some (t, r) → t ++ r = c :: rest ∧ t ≠ [] := by
  intro c rest t r h
  unfold termHere at h
  split at h
  · split at h
    next w d r2 heq =>
      split at h
      next hd =>
        simp only [Option.some.injEq, Prod.mk.injEq] at h
        obtain ⟨ht, hr⟩ := h
        have hws := wsTake_eq rest
        rw [heq] at hws
        subst ht hr hd
        refine ⟨?_, by simp⟩
        simpa [List.cons_append, List.append_assoc] using hws
      next hd => simp at h
    next heq => simp at h
  · simp at h

theorem bodyTerm_eq : ∀ (s b t r : List Char),
    bodyTerm s = some (b, t, r) → b ++ (t ++ r) = s ∧ t ≠ [] := by
  intro s
  induction s with
  | nil => intro b t r h; simp [bodyTerm] at h
  | cons c rest ih =>
    intro b t r h
    unfold bodyTerm at h
    split at h
    next t0 r0 hth =>
      simp only [Option.some.injEq, Prod.mk.injEq] at h
      obtain ⟨hb, ht, hr⟩ := h
      obtain ⟨he, hne⟩ := termHere_eq c rest t0 r0 hth
      subst hb ht hr
      exact ⟨by simpa using he, hne⟩
    next hth =>
      split at h
      next b0 t0 r0 hbt =>
        simp only [Option.some.injEq, Prod.mk.injEq] at h
        obtain ⟨hb, ht, hr⟩ := h
        obtain ⟨he, hne⟩ := ih b0 t0 r0 hbt
        subst hb ht hr
        exact ⟨by simp [List.cons_append, he], hne⟩
      next hbt => simp at h

theorem dbOptions_eq : ∀ (s : List Char) (o : Option (List Char) × List Char),
    o ∈ dbOptions s → (o.1.getD []) ++ o.2 = s := by
  intro s o h
  unfold dbOptions at h
  rcases List.mem_append.mp h with h1 | h2
  · cases hd : dropLit dbOpen s with
    | none => rw [hd] at h1; simp at h1
    | some r =>
      rw [hd] at h1
      obtain ⟨pr, hpr, he⟩ := List.mem_map.mp h1
      have hsp := splitsAtSeq_eq dbClose r pr hpr
      have hws := wsTake_eq pr.2
      have hdo := dropLit_eq dbOpen s r hd
      subst he
      simp only [Option.getD_some]
      have e1 : (dbOpen ++ pr.1 ++ dbClose ++ (wsTake pr.2).1) ++ (wsTake pr.2).2
          = dbOpen ++ (pr.1 ++ (dbClose ++ ((wsTake pr.2).1 ++ (wsTake pr.2).2))) := by
        simp [List.append_assoc]
      rw [e1, hws, hsp]
      exact hdo
  · simp only [List.mem_singleton] at h2
    subst h2
    simp

theorem visOptions_eq : ∀ (s : List Char) (o : Option (List Char) × List Char),
    o ∈ visOptions s → (o.1.getD []) ++ o.2 = s := by
  intro s o h
  unfold visOptions at h
  rcases List.mem_append.mp h with h1 | h2
  · obtain ⟨kw, _, he⟩ := List.mem_filterMap.mp h1
    cases hd : dropLit kw s with
    | none => rw [hd] at he; simp at he
    | some r =>
      rw [hd] at he
      simp only [Option.map_some', Option.some.injEq] at he
      have hdo := dropLit_eq kw s r hd
      subst he
      simpa using hdo
  · simp only [List.mem_singleton] at h2
    subst h2
    simp

theorem matchAfterBrace_eq : ∀ (s b cons r : List Char),
    matchAfterBrace s = some (b, cons, r) → cons ++ r = s ∧ cons ≠ [] := by
  intro s b cons r h
  unfold matchAfterBrace at h
  cases hb : bodyTerm s with
  | none => rw [hb] at h; simp at h
  | some btr =>
    rw [hb] at h
    obtain ⟨b0, t0, r0⟩ := btr
    simp only [Option.map_some', Option.some.injEq, Prod.mk.injEq] at h
    obtain ⟨h1, h2, h3⟩ := h
    obtain ⟨he, hne⟩ := bodyTerm_eq s b0 t0 r0 hb
    subst h1 h2 h3
    constructor
    · simpa [List.append_assoc] using he
    · simp [hne]

theorem matchAfterParen_eq : ∀ (s ps b cons r : List Char),
    matchAfterParen s = some (ps, b, cons, r) → cons ++ r = s ∧ cons ≠ [] := by
  intro s ps b cons r h
  unfold matchAfterParen at h
  obtain ⟨pr, hpr, hf⟩ := findSome_mem h
  have hsp := splitsAtSeq_eq [')'] s pr hpr
  split at hf
  next c s4 heq =>
    split at hf
    next hc =>
      cases hmb : matchAfterBrace s4 with
      | none => rw [hmb] at hf; simp at hf
      | some bcr =>
        rw [hmb] at hf
        obtain ⟨b0, cons0, r0⟩ := bcr
        simp only [Option.map_some', Option.some.injEq, Prod.mk.injEq] at hf
        obtain ⟨hps, hb, hcons, hr⟩ := hf
        obtain ⟨hbe, hbne⟩ := matchAfterBrace_eq s4 b0 cons0 r0 hmb
        have hws := wsTake_eq pr.2
        rw [heq, hc] at hws
        subst hps hb hcons hr
        constructor
        · have e1 : (pr.1 ++ [')'] ++ (wsTake pr.2).1 ++ [lbrace] ++ cons0) ++ r0
              = pr.1 ++ ([')'] ++ ((wsTake pr.2).1 ++ (lbrace :: (cons0 ++ r0)))) := by
            simp [List.append_assoc]
          rw [e1, hbe, hws]
          simpa [List.append_assoc] using hsp
        · simp
    next hc => simp at hf
  next heq => simp at hf

theorem matchAfterFn_eq : ∀ (s nm ps b cons r : List Char),
    matchAfterFn s = some (nm, ps, b, cons, r) → cons ++ r = s ∧ cons ≠ [] := by
  intro s nm ps b cons r h
  unfold matchAfterFn at h
  split at h
  next => simp at h
  next h1 =>
    split at h
    next => simp at h
    next h2 =>
      split at h
      next c s4 heq =>
        split at h
        next hc =>
          cases hmp : matchAfterParen s4 with
          | none => rw [hmp] at h; simp at h
          | some pb =>
            rw [hmp] at h
            obtain ⟨ps0, b0, cons0, r0⟩ := pb
            simp only [Option.map_some', Option.some.injEq, Prod.mk.injEq] at h
            obtain ⟨hnm, hps, hb, hcons, hr⟩ := h
            obtain ⟨hpe, hpne⟩ := matchAfterParen_eq s4 ps0 b0 cons0 r0 hmp
            have hw3 := wsTake_eq s
            have hnm0 := wordTake_eq (wsTake s).2
            have hw4 := wsTake_eq (wordTake (wsTake s).2).2
            rw [heq, hc] at hw4
            subst hnm hps hb hcons hr
            constructor
            · have e1 : ((wsTake s).1 ++ (wordTake (wsTake s).2).1
                    ++ (wsTake (wordTake (wsTake s).2).2).1 ++ ['('] ++ cons0) ++ r0
                  = (wsTake s).1 ++ ((wordTake (wsTake s).2).1
                    ++ ((wsTake (wordTake (wsTake s).2).2).1 ++ ('(' :: (cons0 ++ r0)))) := by
                simp [List.append_assoc]
              rw [e1, hpe, hw4, hnm0, hw3]
            · simp
        next hc => simp at h
      next heq => simp at h

theorem matchVisTail_eq : ∀ (s : List Char) (vis : Option (List Char))
    (nm ps b cons r : List Char),
    matchVisTail s = some (vis, nm, ps, b, cons, r) → cons ++ r = s ∧ cons ≠ [] := by
  intro s vis nm ps b cons r h
  unfold matchVisTail at h
  obtain ⟨vo, hvo, hf⟩ := findSome_mem h
  have hve := visOptions_eq s vo hvo
  cases hd : dropLit fnKeyword (wsTake vo.2).2 with
  | none => rw [hd] at hf; simp at hf
  | some s3 =>
    rw [hd] at hf
    simp only [Option.some_bind] at hf
    cases hmf : matchAfterFn s3 with
    | none => rw [hmf] at hf; simp at hf
    | some q =>
      rw [hmf] at hf
      obtain ⟨nm0, ps0, b0, cons0, r0⟩ := q
      simp only [Option.map_some', Option.some.injEq, Prod.mk.injEq] at hf
      obtain ⟨hv, hnm, hps, hb, hcons, hr⟩ := hf
      obtain ⟨hfe, hfne⟩ := matchAfterFn_eq s3 nm0 ps0 b0 cons0 r0 hmf
      have hdo := dropLit_eq fnKeyword (wsTake vo.2).2 s3 hd
      have hws := wsTake_eq vo.2
      subst hv hnm hps hb hcons hr
      constructor
      · have e1 : ((vo.1.getD []) ++ (wsTake vo.2).1 ++ fnKeyword ++ cons0) ++ r0
            = (vo.1.getD []) ++ ((wsTake vo.2).1 ++ (fnKeyword ++ (cons0 ++ r0))) := by
          simp [List.append_assoc]
        rw [e1, hfe, hdo, hws]
        exact hve
      · simp [fnKeyword]

theorem matchFrom_eq : ∀ (s : List Char) (rm : RawMatch) (r : List Char),
    matchFrom s = some (rm, r) → rm.consumed ++ r = s ∧ rm.consumed ≠ [] := by
  intro s rm r h
  unfold matchFrom at h
  obtain ⟨dbo, hdbo, hf⟩ := findSome_mem h
  have hde := dbOptions_eq s dbo hdbo
  cases hmt : matchVisTail (wsTake dbo.2).2 with
  | none => rw [hmt] at hf; simp at hf
  | some q =>
    rw [hmt] at hf
    obtain ⟨vis0, nm0, ps0, b0, cons0, r0⟩ := q
    simp only [Option.map_some', Option.some.injEq, Prod.mk.injEq] at hf
    obtain ⟨hrm, hr⟩ := hf
    obtain ⟨hte, htne⟩ := matchVisTail_eq (wsTake dbo.2).2 vis0 nm0 ps0 b0 cons0 r0 hmt
    have hws := wsTake_eq dbo.2
    subst hr
    have hcons : rm.consumed = (dbo.1.getD []) ++ (wsTake dbo.2).1 ++ cons0 := by
      rw [← hrm]
    constructor
    · rw [hcons]
      have e1 : ((dbo.1.getD []) ++ (wsTake dbo.2).1 ++ cons0) ++ r0
          = (dbo.1.getD []) ++ ((wsTake dbo.2).1 ++ (cons0 ++ r0)) := by
        simp [List.append_assoc]
      rw [e1, hte, hws]
      exact hde
    · rw [hcons]
      simp [htne]

theorem drop_cons_succ {α : Type} (l : List α) (i : Nat) (c : α) (r : List α)
    (h : l.drop i = c :: r) : l.drop (i + 1) = r := by
  rw [← List.drop_drop, h]
  rfl

theorem scanAux_fidelity : ∀ (f i : Nat) (s base : List Char), base.drop i = s →
    ∀ p ∈ scanAux f i s, (base.drop p.1.start_position).take p.2.length = p.2 := by
  intro f
  induction f with
  | zero => intro i s base hbase p hp; simp [scanAux] at hp
  | succ f ih =>
    intro i s base hbase p hp
    unfold scanAux at hp
    cases s with
    | nil => simp at hp
    | cons c rest =>
      cases hm : matchFrom (c :: rest) with
      | some q =>
        rw [hm] at hp
        obtain ⟨rm, r⟩ := q
        obtain ⟨hce, _⟩ := matchFrom_eq (c :: rest) rm r hm
        have h1 : base.drop i = rm.consumed ++ r := by rw [hbase, ← hce]
        rcases List.mem_cons.mp hp with hph | hpt
        · subst hph
          simp only [mkMethod]
          rw [h1]
          exact List.take_left rm.consumed r
        · have h2 : base.drop (i + rm.consumed.length) = r := by
            rw [← List.drop_drop, h1]
            exact List.drop_left rm.consumed r
          exact ih (i + rm.consumed.length) r base h2 p hpt
      | none =>
        rw [hm] at hp
        exact ih (i + 1) rest base (drop_cons_succ base i c rest hbase) p hp

theorem scanAux_ge : ∀ (f i : Nat) (s : List Char) (p : Method × List Char),
    p ∈ scanAux f i s → i ≤ p.1.start_position := by
  intro f
  induction f with
  | zero => intro i s p hp; simp [scanAux] at hp
  | succ f ih =>
    intro i s p hp
    unfold scanAux at hp
    cases s with
    | nil => simp at hp
    | cons c rest =>
      cases hm : matchFrom (c :: rest) with
      | some q =>
        rw [hm] at hp
        obtain ⟨rm, r⟩ := q
        rcases List.mem_cons.mp hp with hph | hpt
        · subst hph; simp [mkMethod]
        · exact le_trans (Nat.le_add_right i rm.consumed.length)
            (ih (i + rm.consumed.length) r p hpt)
      | none =>
        rw [hm] at hp
        exact le_trans (Nat.le_add_right i 1) (ih (i + 1) rest p hp)

theorem scanAux_pairwise : ∀ (f i : Nat) (s : List Char),
    (scanAux f i s).Pairwise (fun p q => p.1.start_position < q.1.start_position) := by
  intro f
  induction f with
  | zero => intro i s; simp [scanAux]
  | succ f ih =>
    intro i s
    unfold scanAux
    cases s with
    | nil => simp
    | cons c rest =>
      cases hm : matchFrom (c :: rest) with
      | some q =>
        obtain ⟨rm, r⟩ := q
        refine List.Pairwise.cons ?_ (ih (i + rm.consumed.length) r)
        intro p hp
        have h1 : i + rm.consumed.length ≤ p.1.start_position :=
          scanAux_ge f (i + rm.consumed.length) r p hp
        have h2 : 0 < rm.consumed.length :=
          List.length_pos.mpr (matchFrom_eq (c :: rest) rm r hm).2
        simp only [mkMethod]
        omega
      | none => exact ih (i + 1) rest

/-- C3: offset fidelity — for every method record produced by extraction,
`start_position` is the offset of the start of the whole matched construct in
the original unmodified source, so the slice of the source at
`start_position` of the matched construct's length is exactly the text the
extraction grammar matched. -/
theorem c3_offset_fidelity (source : List Char) :
    ∀ p ∈ scanRaw source,
      (source.drop p.1.start_position).take p.2.length = p.2 := by
  intro p hp
  exact scanAux_fidelity source.length 0 source source rfl p hp

/-- Witness for C3 at a concrete source file. -/
theorem c3_offset_fidelity_witness :
    (c3Src.drop c3Pair.1.start_position).take c3Pair.2.length = c3Pair.2 :=
  c3_offset_fidelity c3Src c3Pair (by decide)

theorem attach_map_start : ∀ (ms : List Method) (ds : List (List Char)),
    (attachDocblocks ms ds).map Method.start_position
      = ms.map Method.start_position := by
  intro ms
  induction ms with
  | nil => intro ds; cases ds <;> rfl
  | cons m ms ih =>
    intro ds
    cases ds with
    | nil => rfl
    | cons d ds => simp [attachDocblocks, ih]

/-- C4: order invariant — extraction produces the method list in ascending
`start_position` order, and docblock attachment (the by-index correlation in
`main`) preserves the positions and their order. -/
theorem c4_order_invariant (s : List Char) (ds : List (List Char)) :
    (extractMethods s).Pairwise (fun a b => a.start_position < b.start_position)
    ∧ (attachDocblocks (extractMethods s) ds).map Method.start_position
      = (extractMethods s).map Method.start_position := by
  constructor
  · have hp := scanAux_pairwise s.length 0 s
    exact hp.map Prod.fst (fun a b h => h)
  · exact attach_map_start (extractMethods s) ds

/-- C6: the extraction limitation is preserved — the body is terminated by
the first closing brace alone on its own line, not by brace-depth balancing.
On `php_truncated` the extracted body stops at the inner closing brace of the
`if` (the text after it, a further statement and the method's true closing
brace, is outside the matched construct, whose end offset 49 is short of the
60-character source); `php_oneline`, whose method never places a closing
brace alone on a line, fails to match at all. -/
theorem c6_extraction_limitation :
    (extractMethods php_truncated).map Method.body = [truncatedBody]
    ∧ (scanRaw php_truncated).map (fun p => p.1.start_position + p.2.length) = [49]
    ∧ 49 < php_truncated.length
    ∧ extractMethods php_oneline = [] := by
  refine ⟨by decide, by decide, by decide, by decide⟩

/-- C8: extraction error policy — only the file read can fail; for every
readable contents extraction returns `Ok`, unmatched content is silently
omitted, and an empty result list is a valid success. -/
theorem c8_extraction_error_policy :
    (∀ contents : List Char,
      parse_php_file (.ok contents) = .ok (extractMethods contents))
    ∧ (∀ e : AppError, parse_php_file (.error e) = .error e)
    ∧ parse_php_file (.ok noMethodsSrc) = .ok [] := by
  refine ⟨fun _ => rfl, fun _ => rfl, ?_⟩
  have h : extractMethods noMethodsSrc = [] := by decide
  simp [parse_php_file, h]

theorem foldl_updateStep_none : ∀ (ms : List Method) (acc : List Char × Nat),
    (∀ m ∈ ms, m.docblock = none) → ms.foldl updateStep acc = acc := by
  intro ms
  induction ms with
  | nil => intro acc _; rfl
  | cons m ms ih =>
    intro acc h
    have hm : m.docblock = none := h m (List.mem_cons_self m ms)
    simp only [List.foldl_cons]
    rw [show updateStep acc m = acc from by simp [updateStep, hm]]
    exact ih acc (fun x hx => h x (List.mem_cons_of_mem m hx))

/-- C5: no-op rewrite — with every method's docblock unset the rewriter
leaves the buffer byte-for-byte identical to the file's contents. -/
theorem c5_noop_rewrite (contents : List Char) (methods : List Method)
    (h : ∀ m ∈ methods, m.docblock = none) :
    update_php_file contents methods = contents := by
  unfold update_php_file
  rw [foldl_updateStep_none methods (contents, 0) h]

/-- Witness for C5 at a concrete buffer and method list. -/
theorem c5_noop_rewrite_witness :
    update_php_file c3Src [c3Pair.1] = c3Src :=
  c5_noop_rewrite c3Src [c3Pair.1] (by decide)

theorem foldl_updateStep_spec : ∀ (ms : List Method) (cs : List Char) (adj : Nat),
    (ms.foldl updateStep (cs, adj)).1 = offsetTrackedRewriteSpec cs ms adj := by
  intro ms
  induction ms with
  | nil => intro cs adj; rfl
  | cons m ms ih =>
    intro cs adj
    simp only [List.foldl_cons, offsetTrackedRewriteSpec]
    cases hd : m.docblock with
    | some db => simp only [updateStep, hd]; exact ih _ _
    | none => simp only [updateStep, hd]; exact ih _ _

/-- C2: offset-tracked rewriting — the rewrite loop equals the spec's
description (running adjustment starting at zero, insertion of the
annotation with its two surrounding newline characters at
`start_position + adjustment`, adjustment growing by the inserted length),
and in the concrete scenario with methods at start positions 10 and 50 and
docblocks of length one, the first insertion lands at 10 and the second at
`50 + (1 + 2) = 53`. -/
theorem c2_offset_tracked_rewrite :
    (∀ (contents : List Char) (methods : List Method),
      update_php_file contents methods = offsetTrackedRewriteSpec contents methods 0)
    ∧ (∀ contents : List Char,
      update_php_file contents [demoMethodA, demoMethodB]
        = insertAt (insertAt contents 10 ('\n' :: ('A' :: ['\n'])))
            53 ('\n' :: ('B' :: ['\n']))) := by
  constructor
  · intro contents methods
    exact foldl_updateStep_spec methods contents 0
  · intro contents
    rfl

theorem reconcile_length (n : Nat) (segs : List (List Char)) :
    (reconcile n segs).length = n := by
  unfold reconcile
  split
  next h =>
    split
    next h2 => simp [List.length_append, List.length_replicate]; omega
    next h2 => simp [List.length_take]; omega
  next h => omega

/-- C1: reconciliation of a bulk response is total and count-correct — the
reconciled list always has exactly `n` items, passing segments through when
the counts agree, padding with the fixed placeholder when short, truncating
when long; and on a success response a count mismatch never makes
`generate_bulk_documentation` return an error. -/
theorem c1_reconciliation :
    (∀ (n : Nat) (segs : List (List Char)), (reconcile n segs).length = n)
    ∧ (∀ (n : Nat) (segs : List (List Char)), segs.length = n →
        reconcile n segs = segs)
    ∧ (∀ (n : Nat) (segs : List (List Char)), segs.length < n →
        reconcile n segs = segs ++ List.replicate (n - segs.length) placeholder)
    ∧ (∀ (n : Nat) (segs : List (List Char)), n < segs.length →
        reconcile n segs = segs.take n)
    ∧ (∀ (n st : Nat) (content : List Char), statusIsSuccess st = true →
        generate_bulk_documentation n (.response st (.fields (some content)))
          = .ok (reconcile n (splitSegments content))) := by
  refine ⟨reconcile_length, ?_, ?_, ?_, ?_⟩
  · intro n segs h
    simp [reconcile, h]
  · intro n segs h
    rw [reconcile, if_pos (by omega), if_pos h]
  · intro n segs h
    rw [reconcile, if_pos (by omega), if_neg (by omega)]
  · intro n st content h
    simp [generate_bulk_documentation, h]

/-- Witness for C1: the bulk mismatch scenario — four methods, two segments,
reconciled to four items, the tail padded with the placeholder. -/
theorem c1_reconciliation_witness :
    reconcile 4 [segA, segB] = [segA, segB] ++ List.replicate 2 placeholder := by
  have h := c1_reconciliation.2.2.1 4 [segA, segB] (by decide)
  simpa using h

/-- C7: bulk generation error policy — the operation succeeds exactly when
the transport succeeded, the status is a success status, and the
`content[0].text` field is present; in particular a method-count mismatch is
never an error. -/
theorem c7_bulk_error_policy :
    (∀ (n : Nat) (r : ApiResult),
      exceptIsOk (generate_bulk_documentation n r) = true
        ↔ ∃ st content, r = .response st (.fields (some content))
            ∧ statusIsSuccess st = true)
    ∧ (∀ (n st : Nat) (content : List Char), statusIsSuccess st = true →
        exceptIsOk (generate_bulk_documentation n
          (.response st (.fields (some content)))) = true) := by
  constructor
  · intro n r
    constructor
    · intro h
      cases r with
      | transportError => simp [generate_bulk_documentation, exceptIsOk] at h
      | response st body =>
        by_cases hst : statusIsSuccess st = true
        · cases body with
          | decodeError => simp [generate_bulk_documentation, hst, exceptIsOk] at h
          | fields tf =>
            cases tf with
            | none => simp [generate_bulk_documentation, hst, exceptIsOk] at h
            | some content => exact ⟨st, content, rfl, hst⟩
        · simp [generate_bulk_documentation, hst, exceptIsOk] at h
    · rintro ⟨st, content, rfl, hst⟩
      simp [generate_bulk_documentation, hst, exceptIsOk]
  · intro n st content h
    simp [generate_bulk_documentation, h, exceptIsOk]

/-- Witness for C7 at a concrete success response. -/
theorem c7_bulk_error_policy_witness :
    exceptIsOk (generate_bulk_documentation 3
      (.response 200 (.fields (some segA)))) = true :=
  c7_bulk_error_policy.2 3 200 segA (by decide)

theorem splitSegments_ne_nil : ∀ (content s : List Char),
    s ∈ splitSegments content → s ≠ [] := by
  intro content s h
  have h2 := (List.mem_filter.mp h).2
  intro he
  subst he
  simp at h2

theorem reconcile_ne_nil : ∀ (n : Nat) (content s : List Char),
    s ∈ reconcile n (splitSegments content) → s ≠ [] := by
  intro n content s h
  rw [reconcile] at h
  split at h
  · split at h
    · rcases List.mem_append.mp h with h1 | h2
      · exact splitSegments_ne_nil content s h1
      · have he := (List.mem_replicate.mp h2).2
        subst he
        decide
    · exact splitSegments_ne_nil content s (List.mem_of_mem_take h)
  · exact splitSegments_ne_nil content s h

theorem attach_all_some : ∀ (ms : List Method) (ds : List (List Char)),
    ds.length = ms.length →
    ∀ m ∈ attachDocblocks ms ds, m.docblock.isSome = true := by
  intro ms
  induction ms with
  | nil =>
    intro ds _ m hm
    cases ds with
    | nil => simp [attachDocblocks] at hm
    | cons d ds => simp [attachDocblocks] at hm
  | cons m0 ms ih =>
    intro ds h m hm
    cases ds with
    | nil => simp at h
    | cons d ds =>
      simp only [attachDocblocks] at hm
      rcases List.mem_cons.mp hm with h1 | h2
      · subst h1; simp
      · exact ih ds (by simpa using h) m h2

/-- C10: on every successful bulk run with `n` extracted methods the
generation stage yields exactly `n` non-empty docblocks (segments are
trimmed and empties discarded before counting, and the placeholder is
non-empty), attachment sets one per method, and hence every method reaching
the rewriter has its docblock set — the skip branch is never taken on a
successful run. -/
theorem c10_successful_bulk_run (ms : List Method) (content : List Char) :
    (reconcile ms.length (splitSegments content)).length = ms.length
    ∧ (∀ s ∈ reconcile ms.length (splitSegments content), s ≠ [])
    ∧ (∀ m ∈ attachDocblocks ms (reconcile ms.length (splitSegments content)),
        m.docblock.isSome = true) :=
  ⟨reconcile_length ms.length (splitSegments content),
   fun s hs => reconcile_ne_nil ms.length content s hs,
   fun m hm => attach_all_some ms (reconcile ms.length (splitSegments content))
     (reconcile_length ms.length (splitSegments content)) m hm⟩

/-- Witness for C10 at a concrete method list and response content. -/
theorem c10_successful_bulk_run_witness :
    demoAttached.docblock.isSome = true :=
  (c10_successful_bulk_run [demoMethodA] segA).2.2 demoAttached (by decide)

theorem runSeqAux_rateLimited (oracle : Nat → SeqResp) (base : Nat)
    (h : ∀ k, oracle k = .rateLimited) :
    ∀ (rem k : Nat), runSeqAux oracle base rem k
      = (.retryExhausted, (List.range rem).map (fun i => base * 2 ^ (k + i))) := by
  intro rem
  induction rem with
  | zero =>
    intro k
    simp [runSeqAux, h k]
  | succ r ih =>
    intro k
    simp only [runSeqAux, h k]
    rw [ih (k + 1)]
    have hl : (List.range (r + 1)).map (fun i => base * 2 ^ (k + i))
        = base * 2 ^ k :: (List.range r).map (fun i => base * 2 ^ (k + 1 + i)) := by
      rw [List.range_succ_eq_map, List.map_cons, List.map_map]
      refine congrArg₂ List.cons (by simp) ?_
      refine List.map_congr_left ?_
      intro i _
      show base * 2 ^ (k + (i + 1)) = base * 2 ^ (k + 1 + i)
      have he : k + (i + 1) = k + 1 + i := by omega
      rw [he]
    rw [hl]

/-- C9 (modelled from the spec — sequential mode is not in `src/main.rs`):
when every attempt for method `i` is rate-limited, the retry delays form the
sequence `base * 2 ^ 0, base * 2 ^ 1, …` with exactly `maxRetries` entries
and the outcome is retry-exhausted with no further attempts; every other
method's outcome is unaffected (the failure is isolated to method `i`). -/
theorem c9_sequential_backoff (base maxRetries n i : Nat)
    (oracle : Nat → Nat → SeqResp) (hi : i < n)
    (h : ∀ k, oracle i k = .rateLimited) :
    (sequentialGenerate oracle base maxRetries n)[i]?
      = some (.retryExhausted,
          (List.range maxRetries).map (fun j => base * 2 ^ j))
    ∧ ∀ j, j < n → (sequentialGenerate oracle base maxRetries n)[j]?
        = some (runSeq (oracle j) base maxRetries) := by
  constructor
  · unfold sequentialGenerate
    rw [List.getElem?_map, List.getElem?_range hi]
    simp only [Option.map_some']
    unfold runSeq
    rw [runSeqAux_rateLimited (oracle i) base h maxRetries 0]
    simp
  · intro j hj
    unfold sequentialGenerate
    rw [List.getElem?_map, List.getElem?_range hj]
    rfl

/-- Witness for C9: three retries at base two, all attempts rate-limited. -/
theorem c9_sequential_backoff_witness :
    (sequentialGenerate (fun _ _ => .rateLimited) 2 3 2)[0]?
      = some (.retryExhausted, [2, 4, 8]) := by
  have h := (c9_sequential_backoff 2 3 2 0 (fun _ _ => .rateLimited)
    (by decide) (fun k => rfl)).1
  exact h.trans (by decide)

end PhpDocGen
